import Mathlib

/-!
Shallow embedding of `src/gpui/src/fonts.rs` (the `FontCache` module).

Modelling conventions:
- `f32` values are modelled as `Rat` (division by zero yields 0 in `Rat`).
- Rust `HashMap` is modelled as an association list with first-match lookup
  and cons-overwrite insertion; the nested
  `HashMap<FamilyId, HashMap<Properties, FontId>>` of `font_selections` is
  flattened to a single map keyed by `(FamilyId, Properties)`, which has the
  same get/insert observable behaviour.
- The platform font backend (`platform::FontSystem`) is an opaque structure
  of pure functions; `Result` is `Except String`.
- Methods of `FontCache` become functions threading `FontCacheState`
  explicitly; the `RwLock` is erased (sequential semantics).
- A Rust panic (index out of range, `unwrap` of `None`/`Err`) is modelled by
  an `Option`-valued result being `none`.
-/

namespace Fonts

/-- Association-list lookup, first match wins (models `HashMap::get`). -/
def alookup {α β : Type} [DecidableEq α] : List (α × β) → α → Option β
  | [], _ => none
  | (k, v) :: rest, key => if k = key then some v else alookup rest key

/-- Association-list insert with overwrite semantics (models `HashMap::insert`). -/
def ainsert {α β : Type} [DecidableEq α] (l : List (α × β)) (k : α) (v : β) :
    List (α × β) :=
  (k, v) :: l

/-- `GlyphId` from the source: `pub type GlyphId = u32`. -/
abbrev GlyphId := Nat

/-- `FamilyId(usize)`: index into the family registry. -/
structure FamilyId where
  id : Nat
deriving DecidableEq, Repr

/-- `FontId(pub usize)`: backend font handle. -/
structure FontId where
  id : Nat
deriving DecidableEq, Repr

/-- `font_kit::properties::Properties` (style, weight, stretch); only
equality matters to the cache, so the components are abstracted to
decidable-equality values. -/
structure Properties where
  style : Nat
  weight : Rat
  stretch : Rat
deriving DecidableEq, Repr

/-- `Properties::default()`: normal style, weight 400, stretch 1.0. -/
def Properties.default : Properties := ⟨0, 400, 1⟩

/-- `font_kit` rectangle; only `width()` and `height()` are consumed by the
cache, origin is kept for shape. -/
structure RectF where
  origin_x : Rat
  origin_y : Rat
  width : Rat
  height : Rat
deriving DecidableEq, Repr

/-- `font_kit::metrics::Metrics`, restricted to the fields the cache reads.
`units_per_em` is `u32` in the source, cast to `f32` at use sites. -/
structure Metrics where
  units_per_em : Nat
  ascent : Rat
  descent : Rat
  cap_height : Rat
  bounding_box : RectF
deriving DecidableEq, Repr

/-- The backend capability `platform::FontSystem`, as consumed by the cache. -/
structure FontSystem where
  load_family : String → Except String (List FontId)
  glyph_for_char : FontId → Char → Option GlyphId
  select_font : List FontId → Properties → Option FontId
  font_metrics : FontId → Metrics
  typographic_bounds : FontId → GlyphId → Except String RectF

/-- `struct Family { name, font_ids }`. -/
structure Family where
  name : String
  font_ids : List FontId
deriving DecidableEq, Repr

/-- `FontCacheState`: the state behind the `RwLock`. -/
structure FontCacheState where
  fonts : FontSystem
  families : List Family
  font_selections : List ((FamilyId × Properties) × FontId)
  metrics : List (FontId × Metrics)

namespace FontCache

/-- `FontCache::new`. -/
def new (fonts : FontSystem) : FontCacheState :=
  { fonts := fonts, families := [], font_selections := [], metrics := [] }

/-- `FontCache::load_family`: try each candidate name in order.  The Rust
per-font glyph loop returns its error at the first font missing a glyph for
the character m; since the error message carries no font identity and the
state is mutated only after the loop, it is equivalently modelled with
`List.all`. -/
def load_family (st : FontCacheState) : List String → Except String FamilyId × FontCacheState
  | [] =>
    (Except.error "could not find a non-empty font family matching one of the given names", st)
  | name :: rest =>
    match st.families.findIdx? (fun f => f.name == name) with
    | some ix => (Except.ok ⟨ix⟩, st)
    | none =>
      match st.fonts.load_family name with
      | Except.error _ => load_family st rest
      | Except.ok font_ids =>
        if font_ids.isEmpty then
          load_family st rest
        else if font_ids.all (fun font_id => (st.fonts.glyph_for_char font_id 'm').isSome) then
          (Except.ok ⟨st.families.length⟩,
            { st with families := st.families ++ [⟨name, font_ids⟩] })
        else
          (Except.error "font must contain a glyph for the 'm' character", st)

/-- `FontCache::select_font`.  The Rust function's `Result` is `Ok` on every
path; a `none` here models the two possible panics: `families[family_id.0]`
out of range, and `family.font_ids[0]` on an empty family (evaluated eagerly
as the argument of `unwrap_or`). -/
def select_font (st : FontCacheState) (family_id : FamilyId) (properties : Properties) :
    Option (FontId × FontCacheState) :=
  match alookup st.font_selections (family_id, properties) with
  | some font_id => some (font_id, st)
  | none =>
    match st.families.get? family_id.id with
    | none => none
    | some family =>
      match family.font_ids with
      | [] => none
      | first :: _ =>
        let font_id := (st.fonts.select_font family.font_ids properties).getD first
        some (font_id,
          { st with
            font_selections := ainsert st.font_selections (family_id, properties) font_id })

/-- `FontCache::default_font`: `select_font` with default properties; the
Rust `.unwrap()` never fires because `select_font` only returns `Ok`. -/
def default_font (st : FontCacheState) (family_id : FamilyId) :
    Option (FontId × FontCacheState) :=
  select_font st family_id Properties.default

/-- `FontCache::metric`: generic memoized accessor for the backend metrics
record. -/
def metric {T : Type} (st : FontCacheState) (font_id : FontId) (f : Metrics → T) :
    T × FontCacheState :=
  match alookup st.metrics font_id with
  | some m => (f m, st)
  | none =>
    let m := st.fonts.font_metrics font_id
    (f m, { st with metrics := ainsert st.metrics font_id m })

/-- `FontCache::scale_metric`: `metric * font_size / units_per_em`. -/
def scale_metric (st : FontCacheState) (m : Rat) (font_id : FontId) (font_size : Rat) :
    Rat × FontCacheState :=
  let p := metric st font_id (fun me => (me.units_per_em : Rat))
  (m * font_size / p.1, p.2)

/-- `FontCache::bounding_box`: `vec2f(width, height)` modelled as a pair. -/
def bounding_box (st : FontCacheState) (font_id : FontId) (font_size : Rat) :
    (Rat × Rat) × FontCacheState :=
  let pb := metric st font_id (fun m => m.bounding_box)
  let pw := scale_metric pb.2 pb.1.width font_id font_size
  let ph := scale_metric pw.2 pb.1.height font_id font_size
  ((pw.1, ph.1), ph.2)

/-- `FontCache::em_width`: queries the backend directly (never the metrics
map) for the glyph of m and its typographic bounds; the two `unwrap`s are
the `none` cases. -/
def em_width (st : FontCacheState) (font_id : FontId) (font_size : Rat) :
    Option (Rat × FontCacheState) :=
  match st.fonts.glyph_for_char font_id 'm' with
  | none => none
  | some glyph_id =>
    match st.fonts.typographic_bounds font_id glyph_id with
    | Except.error _ => none
    | Except.ok bounds => some (scale_metric st bounds.width font_id font_size)

/-- `FontCache::line_height`. -/
def line_height (st : FontCacheState) (font_id : FontId) (font_size : Rat) :
    Rat × FontCacheState :=
  let pb := metric st font_id (fun m => m.bounding_box)
  scale_metric pb.2 pb.1.height font_id font_size

/-- `FontCache::cap_height`. -/
def cap_height (st : FontCacheState) (font_id : FontId) (font_size : Rat) :
    Rat × FontCacheState :=
  let p := metric st font_id (fun m => m.cap_height)
  scale_metric p.2 p.1 font_id font_size

/-- `FontCache::ascent`. -/
def ascent (st : FontCacheState) (font_id : FontId) (font_size : Rat) :
    Rat × FontCacheState :=
  let p := metric st font_id (fun m => m.ascent)
  scale_metric p.2 p.1 font_id font_size

/-- `FontCache::descent`. -/
def descent (st : FontCacheState) (font_id : FontId) (font_size : Rat) :
    Rat × FontCacheState :=
  let p := metric st font_id (fun m => m.descent)
  scale_metric p.2 p.1 font_id font_size

end FontCache

/-- One public cache operation, for describing reachable states.  The
generic `metric` accessor always has the same state effect whatever closure
it is given (it inserts the full backend `Metrics` record), so a single
`metricQuery` constructor represents every instantiation. -/
inductive Op where
  | load (names : List String)
  | select (family_id : FamilyId) (properties : Properties)
  | defaultFont (family_id : FamilyId)
  | boundingBox (font_id : FontId) (font_size : Rat)
  | emWidth (font_id : FontId) (font_size : Rat)
  | lineHeight (font_id : FontId) (font_size : Rat)
  | capHeight (font_id : FontId) (font_size : Rat)
  | ascentOp (font_id : FontId) (font_size : Rat)
  | descentOp (font_id : FontId) (font_size : Rat)
  | scaleMetricOp (m : Rat) (font_id : FontId) (font_size : Rat)
  | metricQuery (font_id : FontId)

/-- State after one operation.  An operation that panics (returns `none`)
leaves the state unchanged: in the source every mutation happens after the
last possible panic point of the same call. -/
def applyOp (st : FontCacheState) : Op → FontCacheState
  | Op.load names => (FontCache.load_family st names).2
  | Op.select family_id properties =>
    match FontCache.select_font st family_id properties with
    | some r => r.2
    | none => st
  | Op.defaultFont family_id =>
    match FontCache.default_font st family_id with
    | some r => r.2
    | none => st
  | Op.boundingBox font_id font_size => (FontCache.bounding_box st font_id font_size).2
  | Op.emWidth font_id font_size =>
    match FontCache.em_width st font_id font_size with
    | some r => r.2
    | none => st
  | Op.lineHeight font_id font_size => (FontCache.line_height st font_id font_size).2
  | Op.capHeight font_id font_size => (FontCache.cap_height st font_id font_size).2
  | Op.ascentOp font_id font_size => (FontCache.ascent st font_id font_size).2
  | Op.descentOp font_id font_size => (FontCache.descent st font_id font_size).2
  | Op.scaleMetricOp m font_id font_size => (FontCache.scale_metric st m font_id font_size).2
  | Op.metricQuery font_id => (FontCache.metric st font_id (fun m => m)).2

/-- The cache state reached from `FontCache::new` by a sequence of public
operations. -/
def run (fonts : FontSystem) (ops : List Op) : FontCacheState :=
  ops.foldl applyOp (FontCache.new fonts)

/-- Every memoized metrics entry agrees with the backend. -/
def MetricsOk (st : FontCacheState) : Prop :=
  ∀ font_id m, alookup st.metrics font_id = some m → m = st.fonts.font_metrics font_id

/-- Every registered family is non-empty and all its fonts have a glyph for
the character m. -/
def FamiliesOk (st : FontCacheState) : Prop :=
  ∀ fam ∈ st.families, fam.font_ids ≠ [] ∧
    ∀ font_id ∈ fam.font_ids, (st.fonts.glyph_for_char font_id 'm').isSome = true

/-- The cache invariant. -/
def Inv (st : FontCacheState) : Prop := MetricsOk st ∧ FamiliesOk st

theorem alookup_ainsert {α β : Type} [DecidableEq α] (l : List (α × β)) (k k2 : α) (v : β) :
    alookup (ainsert l k v) k2 = if k = k2 then some v else alookup l k2 := rfl

theorem inv_new (fonts : FontSystem) : Inv (FontCache.new fonts) := by
  constructor
  · intro font_id m h
    simp [FontCache.new, alookup] at h
  · intro fam hfam
    simp [FontCache.new] at hfam

/-- The two possible outcomes of the memoized `metric` accessor on the state. -/
theorem metric_snd {T : Type} (st : FontCacheState) (font_id : FontId) (f : Metrics → T) :
    (FontCache.metric st font_id f).2 = st ∨
    (FontCache.metric st font_id f).2
      = { st with metrics := ainsert st.metrics font_id (st.fonts.font_metrics font_id) } := by
  unfold FontCache.metric
  cases alookup st.metrics font_id with
  | some m => exact Or.inl rfl
  | none => exact Or.inr rfl

/-- Under the invariant, `metric` computes its projection on the backend
metrics record. -/
theorem metric_fst {T : Type} (st : FontCacheState) (font_id : FontId) (f : Metrics → T)
    (h : MetricsOk st) :
    (FontCache.metric st font_id f).1 = f (st.fonts.font_metrics font_id) := by
  unfold FontCache.metric
  cases halk : alookup st.metrics font_id with
  | some m => simp [h font_id m halk]
  | none => simp

/-- State relation produced by the metrics-memoizing queries: backend,
families and selections untouched, invariant preserved. -/
def MStep (st st2 : FontCacheState) : Prop :=
  st2.fonts = st.fonts ∧ st2.families = st.families ∧
  st2.font_selections = st.font_selections ∧ (Inv st → Inv st2)

theorem MStep.refl (st : FontCacheState) : MStep st st :=
  ⟨Eq.refl _, Eq.refl _, Eq.refl _, fun h => h⟩

theorem MStep.trans {s1 s2 s3 : FontCacheState} (h1 : MStep s1 s2) (h2 : MStep s2 s3) :
    MStep s1 s3 :=
  ⟨h2.1.trans h1.1, h2.2.1.trans h1.2.1, h2.2.2.1.trans h1.2.2.1,
   fun h => h2.2.2.2 (h1.2.2.2 h)⟩

theorem metric_mstep {T : Type} (st : FontCacheState) (font_id : FontId) (f : Metrics → T) :
    MStep st (FontCache.metric st font_id f).2 := by
  rcases metric_snd st font_id f with h | h <;> rw [h]
  · exact MStep.refl st
  · refine ⟨rfl, rfl, rfl, fun hinv => ⟨?_, ?_⟩⟩
    · intro fid m hm
      rw [alookup_ainsert] at hm
      by_cases hfid : font_id = fid
      · subst hfid
        simp at hm
        simpa using hm.symm
      · rw [if_neg hfid] at hm
        exact hinv.1 fid m hm
    · exact hinv.2

theorem scale_metric_mstep (st : FontCacheState) (m : Rat) (font_id : FontId) (font_size : Rat) :
    MStep st (FontCache.scale_metric st m font_id font_size).2 :=
  metric_mstep st font_id (fun me => (me.units_per_em : Rat))

theorem bounding_box_mstep (st : FontCacheState) (font_id : FontId) (font_size : Rat) :
    MStep st (FontCache.bounding_box st font_id font_size).2 := by
  show MStep st (FontCache.scale_metric
      (FontCache.scale_metric (FontCache.metric st font_id (fun m => m.bounding_box)).2
        ((FontCache.metric st font_id (fun m => m.bounding_box)).1).width font_id font_size).2
      ((FontCache.metric st font_id (fun m => m.bounding_box)).1).height font_id font_size).2
  exact ((metric_mstep _ _ _).trans (scale_metric_mstep _ _ _ _)).trans
    (scale_metric_mstep _ _ _ _)

theorem line_height_mstep (st : FontCacheState) (font_id : FontId) (font_size : Rat) :
    MStep st (FontCache.line_height st font_id font_size).2 := by
  show MStep st (FontCache.scale_metric (FontCache.metric st font_id (fun m => m.bounding_box)).2
      ((FontCache.metric st font_id (fun m => m.bounding_box)).1).height font_id font_size).2
  exact (metric_mstep _ _ _).trans (scale_metric_mstep _ _ _ _)

theorem cap_height_mstep (st : FontCacheState) (font_id : FontId) (font_size : Rat) :
    MStep st (FontCache.cap_height st font_id font_size).2 := by
  show MStep st (FontCache.scale_metric (FontCache.metric st font_id (fun m => m.cap_height)).2
      (FontCache.metric st font_id (fun m => m.cap_height)).1 font_id font_size).2
  exact (metric_mstep _ _ _).trans (scale_metric_mstep _ _ _ _)

theorem ascent_mstep (st : FontCacheState) (font_id : FontId) (font_size : Rat) :
    MStep st (FontCache.ascent st font_id font_size).2 := by
  show MStep st (FontCache.scale_metric (FontCache.metric st font_id (fun m => m.ascent)).2
      (FontCache.metric st font_id (fun m => m.ascent)).1 font_id font_size).2
  exact (metric_mstep _ _ _).trans (scale_metric_mstep _ _ _ _)

theorem descent_mstep (st : FontCacheState) (font_id : FontId) (font_size : Rat) :
    MStep st (FontCache.descent st font_id font_size).2 := by
  show MStep st (FontCache.scale_metric (FontCache.metric st font_id (fun m => m.descent)).2
      (FontCache.metric st font_id (fun m => m.descent)).1 font_id font_size).2
  exact (metric_mstep _ _ _).trans (scale_metric_mstep _ _ _ _)

/-- Outcome analysis of `load_family`: either the state is unchanged, or
exactly one well-formed family is appended and its index is returned. -/
theorem load_family_cases (st : FontCacheState) (names : List String) :
    (FontCache.load_family st names).2 = st ∨
    ∃ name ids, ids ≠ [] ∧
      ids.all (fun font_id => (st.fonts.glyph_for_char font_id 'm').isSome) = true ∧
      FontCache.load_family st names
        = (Except.ok ⟨st.families.length⟩,
           { st with families := st.families ++ [⟨name, ids⟩] }) := by
  induction names with
  | nil => exact Or.inl rfl
  | cons name rest ih =>
    simp only [FontCache.load_family]
    cases hfind : st.families.findIdx? (fun f => f.name == name) with
    | some ix => exact Or.inl rfl
    | none =>
      cases hload : st.fonts.load_family name with
      | error e => exact ih
      | ok ids =>
        by_cases hemp : ids.isEmpty = true
        · simp only [if_pos hemp]
          exact ih
        · simp only [if_neg hemp]
          by_cases hall :
              ids.all (fun font_id => (st.fonts.glyph_for_char font_id 'm').isSome) = true
          · simp only [if_pos hall]
            exact Or.inr ⟨name, ids, by simpa using hemp, hall, rfl⟩
          · simp only [if_neg hall]
            exact Or.inl trivial

/-- Outcome analysis of a successful `select_font`: the state is unchanged
(cache hit) or gains one selection entry. -/
theorem select_font_snd (st : FontCacheState) (family_id : FamilyId) (properties : Properties)
    (r : FontId × FontCacheState)
    (h : FontCache.select_font st family_id properties = some r) :
    r.2 = st ∨
    r.2 = { st with
      font_selections := ainsert st.font_selections (family_id, properties) r.1 } := by
  unfold FontCache.select_font at h
  split at h
  · simp only [Option.some.injEq] at h
    subst h
    exact Or.inl rfl
  · split at h
    · exact absurd h (by simp)
    · split at h
      · exact absurd h (by simp)
      · simp only [Option.some.injEq] at h
        subst h
        exact Or.inr rfl

/-- Outcome analysis of a successful `em_width`: its state effect is that of
the `scale_metric` it ends with. -/
theorem em_width_snd (st : FontCacheState) (font_id : FontId) (font_size : Rat)
    (r : Rat × FontCacheState)
    (h : FontCache.em_width st font_id font_size = some r) :
    ∃ w, r.2 = (FontCache.scale_metric st w font_id font_size).2 := by
  unfold FontCache.em_width at h
  split at h
  · exact absurd h (by simp)
  · split at h
    · exact absurd h (by simp)
    · case _ bounds _ =>
      simp only [Option.some.injEq] at h
      subst h
      exact ⟨bounds.width, rfl⟩

/-- Every operation preserves the backend, only appends to the family
registry, and preserves the cache invariant. -/
theorem applyOp_spec (st : FontCacheState) (op : Op) :
    (applyOp st op).fonts = st.fonts ∧
    (∃ tail, (applyOp st op).families = st.families ++ tail) ∧
    (Inv st → Inv (applyOp st op)) := by
  cases op with
  | load names =>
    simp only [applyOp]
    rcases load_family_cases st names with h | ⟨name, ids, hne, hall, h⟩
    · rw [h]
      exact ⟨rfl, ⟨[], by simp⟩, fun hinv => hinv⟩
    · rw [h]
      refine ⟨rfl, ⟨[⟨name, ids⟩], rfl⟩, fun hinv => ⟨hinv.1, ?_⟩⟩
      intro fam hfam
      simp only [List.mem_append, List.mem_singleton] at hfam
      rcases hfam with hfam | hfam
      · exact hinv.2 fam hfam
      · subst hfam
        refine ⟨hne, ?_⟩
        intro fid hfid
        exact List.all_eq_true.mp hall fid hfid
  | select family_id properties =>
    simp only [applyOp]
    cases hsel : FontCache.select_font st family_id properties with
    | none => exact ⟨rfl, ⟨[], by simp⟩, fun hinv => hinv⟩
    | some r =>
      simp only
      rcases select_font_snd st family_id properties r hsel with h | h <;> rw [h]
      · exact ⟨rfl, ⟨[], by simp⟩, fun hinv => hinv⟩
      · exact ⟨rfl, ⟨[], by simp⟩, fun hinv => ⟨hinv.1, hinv.2⟩⟩
  | defaultFont family_id =>
    simp only [applyOp]
    cases hsel : FontCache.default_font st family_id with
    | none => exact ⟨rfl, ⟨[], by simp⟩, fun hinv => hinv⟩
    | some r =>
      simp only
      rcases select_font_snd st family_id Properties.default r hsel with h | h <;> rw [h]
      · exact ⟨rfl, ⟨[], by simp⟩, fun hinv => hinv⟩
      · exact ⟨rfl, ⟨[], by simp⟩, fun hinv => ⟨hinv.1, hinv.2⟩⟩
  | boundingBox font_id font_size =>
    simp only [applyOp]
    have h := bounding_box_mstep st font_id font_size
    exact ⟨h.1, ⟨[], by simp [h.2.1]⟩, h.2.2.2⟩
  | emWidth font_id font_size =>
    simp only [applyOp]
    cases hw : FontCache.em_width st font_id font_size with
    | none => exact ⟨rfl, ⟨[], by simp⟩, fun hinv => hinv⟩
    | some r =>
      simp only
      rcases em_width_snd st font_id font_size r hw with ⟨w, h⟩
      rw [h]
      have hm := scale_metric_mstep st w font_id font_size
      exact ⟨hm.1, ⟨[], by simp [hm.2.1]⟩, hm.2.2.2⟩
  | lineHeight font_id font_size =>
    simp only [applyOp]
    have h := line_height_mstep st font_id font_size
    exact ⟨h.1, ⟨[], by simp [h.2.1]⟩, h.2.2.2⟩
  | capHeight font_id font_size =>
    simp only [applyOp]
    have h := cap_height_mstep st font_id font_size
    exact ⟨h.1, ⟨[], by simp [h.2.1]⟩, h.2.2.2⟩
  | ascentOp font_id font_size =>
    simp only [applyOp]
    have h := ascent_mstep st font_id font_size
    exact ⟨h.1, ⟨[], by simp [h.2.1]⟩, h.2.2.2⟩
  | descentOp font_id font_size =>
    simp only [applyOp]
    have h := descent_mstep st font_id font_size
    exact ⟨h.1, ⟨[], by simp [h.2.1]⟩, h.2.2.2⟩
  | scaleMetricOp m font_id font_size =>
    simp only [applyOp]
    have h := scale_metric_mstep st m font_id font_size
    exact ⟨h.1, ⟨[], by simp [h.2.1]⟩, h.2.2.2⟩
  | metricQuery font_id =>
    simp only [applyOp]
    have h := metric_mstep st font_id (fun m => m)
    exact ⟨h.1, ⟨[], by simp [h.2.1]⟩, h.2.2.2⟩

/-- The backend capability is never replaced. -/
theorem run_fonts (fonts : FontSystem) (ops : List Op) : (run fonts ops).fonts = fonts := by
  suffices h : ∀ st : FontCacheState, (ops.foldl applyOp st).fonts = st.fonts by
    exact h (FontCache.new fonts)
  induction ops with
  | nil => intro st; rfl
  | cons op rest ih =>
    intro st
    rw [List.foldl_cons, ih, (applyOp_spec st op).1]

/-- Every reachable state satisfies the cache invariant. -/
theorem run_inv (fonts : FontSystem) (ops : List Op) : Inv (run fonts ops) := by
  suffices h : ∀ st : FontCacheState, Inv st → Inv (ops.foldl applyOp st) by
    exact h (FontCache.new fonts) (inv_new fonts)
  induction ops with
  | nil => intro st hst; exact hst
  | cons op rest ih =>
    intro st hst
    rw [List.foldl_cons]
    exact ih (applyOp st op) ((applyOp_spec st op).2.2 hst)

/-- Core behaviour of `select_font` on a state with well-formed families and
a valid family index: the call succeeds, a repeat call with the same key
returns the same font id and state, and on a cache miss where the backend
declines, the answer is the family's first font. -/
theorem select_font_aux (st : FontCacheState) (f : FamilyId) (p : Properties)
    (hfam : FamiliesOk st) (h : f.id < st.families.length) :
    ∃ fid st2, FontCache.select_font st f p = some (fid, st2) ∧
      FontCache.select_font st2 f p = some (fid, st2) ∧
      (alookup st.font_selections (f, p) = none →
        st.fonts.select_font (st.families.get ⟨f.id, h⟩).font_ids p = none →
        (st.families.get ⟨f.id, h⟩).font_ids.head? = some fid) := by
  have hget : st.families.get? f.id = some (st.families.get ⟨f.id, h⟩) := List.get?_eq_get h
  have hmem : st.families.get ⟨f.id, h⟩ ∈ st.families := List.get_mem _ _ _
  have hne : (st.families.get ⟨f.id, h⟩).font_ids ≠ [] := (hfam _ hmem).1
  cases halk : alookup st.font_selections (f, p) with
  | some fid =>
    refine ⟨fid, st, ?_, ?_, ?_⟩
    · unfold FontCache.select_font
      rw [halk]
    · unfold FontCache.select_font
      rw [halk]
    · intro hnone
      exact absurd hnone (by simp)
  | none =>
    rcases List.exists_cons_of_ne_nil hne with ⟨first, t, hcons⟩
    set sel := (st.fonts.select_font (first :: t) p).getD first with hseldef
    set st2 : FontCacheState :=
      { st with font_selections := ainsert st.font_selections (f, p) sel } with hst2def
    refine ⟨sel, st2, ?_, ?_, ?_⟩
    · unfold FontCache.select_font
      simp only [halk, hget]
      rw [hcons]
    · unfold FontCache.select_font
      simp [alookup_ainsert]
    · intro _ hbsel
      rw [hcons] at hbsel
      rw [hcons, hseldef, hbsel]
      rfl

/-- Value computed by `scale_metric` on any state whose metrics cache agrees
with the backend. -/
theorem scale_metric_fst (st : FontCacheState) (m : Rat) (font_id : FontId)
    (font_size : Rat) (h : MetricsOk st) :
    (FontCache.scale_metric st m font_id font_size).1
      = m * font_size / ((st.fonts.font_metrics font_id).units_per_em : Rat) := by
  have h1 : (FontCache.scale_metric st m font_id font_size).1
      = m * font_size
        / (FontCache.metric st font_id (fun me => (me.units_per_em : Rat))).1 :=
    rfl
  rw [h1, metric_fst _ _ _ h]

/-- C1: `scale_metric` computes `raw * font_size / units_per_em`, where
`units_per_em` is the backend metric for the font (memoized or fetched). -/
theorem scale_metric_exact (fonts : FontSystem) (ops : List Op) (m : Rat)
    (font_id : FontId) (font_size : Rat) :
    (FontCache.scale_metric (run fonts ops) m font_id font_size).1
      = m * font_size / ((fonts.font_metrics font_id).units_per_em : Rat) := by
  rw [scale_metric_fst _ _ _ _ (run_inv fonts ops).1, run_fonts]

/-- C2: on any reachable state, selecting a font twice for the same valid
family and properties returns the same `FontId` both times, the second time
from the selection index. -/
theorem select_font_idempotent (fonts : FontSystem) (ops : List Op) (f : FamilyId)
    (p : Properties) (h : f.id < (run fonts ops).families.length) :
    ∃ fid st2, FontCache.select_font (run fonts ops) f p = some (fid, st2) ∧
      FontCache.select_font st2 f p = some (fid, st2) := by
  rcases select_font_aux (run fonts ops) f p (run_inv fonts ops).2 h with ⟨fid, st2, h1, h2, _⟩
  exact ⟨fid, st2, h1, h2⟩

/-- C3: `default_font` is `select_font` at the default properties, and it
cannot fail for a loaded family. -/
theorem default_font_spec (fonts : FontSystem) (ops : List Op) (f : FamilyId)
    (h : f.id < (run fonts ops).families.length) :
    FontCache.default_font (run fonts ops) f
      = FontCache.select_font (run fonts ops) f Properties.default ∧
    ∃ fid st2, FontCache.default_font (run fonts ops) f = some (fid, st2) := by
  refine ⟨rfl, ?_⟩
  rcases select_font_aux (run fonts ops) f Properties.default (run_inv fonts ops).2 h with
    ⟨fid, st2, h1, _, _⟩
  exact ⟨fid, st2, h1⟩

/-- C4: for a valid family, `select_font` always succeeds; on a cache miss
where the backend declines to choose, it answers the family's first
registered font. -/
theorem select_font_total (fonts : FontSystem) (ops : List Op) (f : FamilyId)
    (p : Properties) (h : f.id < (run fonts ops).families.length) :
    ∃ fid st2, FontCache.select_font (run fonts ops) f p = some (fid, st2) ∧
      (alookup (run fonts ops).font_selections (f, p) = none →
        fonts.select_font ((run fonts ops).families.get ⟨f.id, h⟩).font_ids p = none →
        ((run fonts ops).families.get ⟨f.id, h⟩).font_ids.head? = some fid) := by
  rcases select_font_aux (run fonts ops) f p (run_inv fonts ops).2 h with ⟨fid, st2, h1, _, h3⟩
  rw [run_fonts fonts ops] at h3
  exact ⟨fid, st2, h1, h3⟩

/-- C10: `line_height` returns exactly the height component of
`bounding_box`, on any state. -/
theorem line_height_eq_bounding_box_height (st : FontCacheState) (font_id : FontId)
    (font_size : Rat) :
    (FontCache.line_height st font_id font_size).1
      = ((FontCache.bounding_box st font_id font_size).1).2 := by
  unfold FontCache.line_height FontCache.bounding_box FontCache.scale_metric FontCache.metric
  cases halk : alookup st.metrics font_id with
  | some m => simp [halk]
  | none => simp [halk, alookup_ainsert]

/-- C8: in every reachable state, every registered family is non-empty, and
one more operation only ever appends to the family registry (ids are list
positions, so they are dense, assigned in load order and never reassigned). -/
theorem family_registry_invariant (fonts : FontSystem) (ops : List Op) :
    (∀ fam ∈ (run fonts ops).families, fam.font_ids ≠ []) ∧
    (∀ op, ∃ tail, (run fonts (ops ++ [op])).families = (run fonts ops).families ++ tail) ∧
    ∀ names, (FontCache.load_family (run fonts ops) names).2 = run fonts ops ∨
      ∃ name ids, FontCache.load_family (run fonts ops) names
        = (Except.ok ⟨(run fonts ops).families.length⟩,
           { run fonts ops with
             families := (run fonts ops).families ++ [⟨name, ids⟩] }) := by
  refine ⟨?_, ?_, ?_⟩
  · intro fam hfam
    exact ((run_inv fonts ops).2 fam hfam).1
  · intro op
    rcases (applyOp_spec (run fonts ops) op).2.1 with ⟨tail, htail⟩
    refine ⟨tail, ?_⟩
    rw [show run fonts (ops ++ [op]) = applyOp (run fonts ops) op by
      simp [run, List.foldl_append]]
    exact htail
  · intro names
    rcases load_family_cases (run fonts ops) names with h | ⟨name, ids, _, _, h⟩
    · exact Or.inl h
    · exact Or.inr ⟨name, ids, h⟩

theorem findIdx?_append_singleton {α : Type} (p : α → Bool) (x : α) :
    ∀ (l : List α) (i : Nat), List.findIdx? p l i = none → p x = true →
      List.findIdx? p (l ++ [x]) i = some (i + l.length) := by
  intro l
  induction l with
  | nil =>
    intro i _ hx
    simp [List.findIdx?_cons, hx]
  | cons a l ih =>
    intro i hnone hx
    rw [List.findIdx?_cons] at hnone
    rw [List.cons_append, List.findIdx?_cons]
    by_cases hpa : p a
    · rw [if_pos hpa] at hnone
      exact absurd hnone (by simp)
    · rw [if_neg hpa] at hnone
      rw [if_neg hpa, ih (i + 1) hnone hx]
      congr 1
      simp only [List.length_cons]
      omega

/-- C5: a candidate whose backend font set is non-empty but contains a font
without a glyph for m makes `load_family` fail with the required-glyph error
and leaves the state untouched; a subsequent successful load from that state
registers the next sequential id, with no index skipped. -/
theorem load_family_glyph_failure (st : FontCacheState) (name : String) (rest : List String)
    (ids : List FontId)
    (hnew : st.families.findIdx? (fun fam => fam.name == name) = none)
    (hload : st.fonts.load_family name = Except.ok ids)
    (hne : ids ≠ [])
    (hbad : ids.all (fun font_id => (st.fonts.glyph_for_char font_id 'm').isSome) = false) :
    FontCache.load_family st (name :: rest)
      = (Except.error "font must contain a glyph for the 'm' character", st) ∧
    ∀ name2 ids2, st.families.findIdx? (fun fam => fam.name == name2) = none →
      st.fonts.load_family name2 = Except.ok ids2 → ids2 ≠ [] →
      ids2.all (fun font_id => (st.fonts.glyph_for_char font_id 'm').isSome) = true →
      FontCache.load_family st [name2]
        = (Except.ok ⟨st.families.length⟩,
           { st with families := st.families ++ [⟨name2, ids2⟩] }) := by
  constructor
  · simp only [FontCache.load_family, hnew, hload]
    rw [if_neg (by simp [List.isEmpty_iff, hne]), if_neg (by simp [hbad])]
  · intro name2 ids2 hnew2 hload2 hne2 hall2
    simp only [FontCache.load_family, hnew2, hload2]
    rw [if_neg (by simp [List.isEmpty_iff, hne2]), if_pos hall2]

/-- C6: when every candidate name is unregistered and the backend fails or
returns an empty set for it, `load_family` returns the no-matching-family
error, the state unchanged; skipping past failed or empty candidates is not
itself an error. -/
theorem load_family_exhausted (st : FontCacheState) (names : List String)
    (h : ∀ name ∈ names, st.families.findIdx? (fun fam => fam.name == name) = none ∧
      ((∃ e, st.fonts.load_family name = Except.error e) ∨
        st.fonts.load_family name = Except.ok [])) :
    FontCache.load_family st names
      = (Except.error "could not find a non-empty font family matching one of the given names",
         st) := by
  induction names with
  | nil => rfl
  | cons name rest ih =>
    rcases h name (by simp) with ⟨hnew, hrest⟩
    have ihr : FontCache.load_family st rest
        = (Except.error
            "could not find a non-empty font family matching one of the given names", st) :=
      ih (fun n hn => h n (by simp [hn]))
    rcases hrest with ⟨e, herr⟩ | hempty
    · simp only [FontCache.load_family, hnew, herr]
      exact ihr
    · simp only [FontCache.load_family, hnew, hempty]
      rw [if_pos (by simp)]
      exact ihr

/-- C7: when a candidate's exact name is already registered, `load_family`
returns its existing id with the state unchanged and the result does not
depend on the backend at all (no backend call can matter); moreover a
second load of a single name that just succeeded returns the same id with
no state change (and again independently of the backend). -/
theorem load_family_registered (st : FontCacheState) (name : String) (rest : List String) :
    (∀ ix, st.families.findIdx? (fun fam => fam.name == name) = some ix →
      FontCache.load_family st (name :: rest) = (Except.ok ⟨ix⟩, st) ∧
      ∀ fonts2 : FontSystem,
        FontCache.load_family { st with fonts := fonts2 } (name :: rest)
          = (Except.ok ⟨ix⟩, { st with fonts := fonts2 })) ∧
    ∀ fid st2, FontCache.load_family st [name] = (Except.ok fid, st2) →
      FontCache.load_family st2 [name] = (Except.ok fid, st2) := by
  constructor
  · intro ix hix
    constructor
    · simp only [FontCache.load_family, hix]
    · intro fonts2
      simp only [FontCache.load_family]
      rw [show ({ st with fonts := fonts2 } : FontCacheState).families = st.families from rfl,
        hix]
  · intro fid st2 hsucc
    cases hfind : st.families.findIdx? (fun fam => fam.name == name) with
    | some ix =>
      simp only [FontCache.load_family, hfind] at hsucc
      simp only [Prod.mk.injEq, Except.ok.injEq] at hsucc
      rcases hsucc with ⟨hfid, hst⟩
      subst hfid
      subst hst
      simp only [FontCache.load_family, hfind]
    | none =>
      cases hload : st.fonts.load_family name with
      | error e =>
        simp only [FontCache.load_family, hfind, hload] at hsucc
        exact absurd hsucc (by simp [FontCache.load_family])
      | ok ids =>
        by_cases hemp : ids.isEmpty = true
        · simp only [FontCache.load_family, hfind, hload, if_pos hemp] at hsucc
          exact absurd hsucc (by simp [FontCache.load_family])
        · by_cases hall :
              ids.all (fun font_id => (st.fonts.glyph_for_char font_id 'm').isSome) = true
          · simp only [FontCache.load_family, hfind, hload, if_neg hemp, if_pos hall] at hsucc
            simp only [Prod.mk.injEq, Except.ok.injEq] at hsucc
            rcases hsucc with ⟨hfid, hst⟩
            subst hfid
            subst hst
            have hname : (fun fam : Family => fam.name == name) ⟨name, ids⟩ = true := by
              simp
            have hidx := findIdx?_append_singleton (fun fam : Family => fam.name == name)
              ⟨name, ids⟩ st.families 0 hfind hname
            simp only [Nat.zero_add] at hidx
            simp only [FontCache.load_family]
            rw [hidx]
          · simp only [FontCache.load_family, hfind, hload, if_neg hemp, if_neg hall] at hsucc
            exact absurd hsucc (by simp)

/-- C9 (amended): for a font of a loaded family, the backend has a glyph
for m, and `em_width` re-queries the backend for that glyph and its
typographic bounds on every call; when the bounds query succeeds the result
is the bounds width scaled by `font_size / units_per_em`, but a failed
bounds query still panics (it is reachable even for validated fonts). -/
theorem em_width_spec (fonts : FontSystem) (ops : List Op) (font_id : FontId)
    (font_size : Rat)
    (h : ∃ fam ∈ (run fonts ops).families, font_id ∈ fam.font_ids) :
    ∃ g, fonts.glyph_for_char font_id 'm' = some g ∧
      (∀ b, fonts.typographic_bounds font_id g = Except.ok b →
        FontCache.em_width (run fonts ops) font_id font_size
          = some (b.width * font_size / ((fonts.font_metrics font_id).units_per_em : Rat),
              (FontCache.scale_metric (run fonts ops) b.width font_id font_size).2)) ∧
      (∀ e, fonts.typographic_bounds font_id g = Except.error e →
        FontCache.em_width (run fonts ops) font_id font_size = none) := by
  rcases h with ⟨fam, hfam, hfid⟩
  have hglyph := ((run_inv fonts ops).2 fam hfam).2 font_id hfid
  rw [run_fonts] at hglyph
  rcases Option.isSome_iff_exists.mp hglyph with ⟨g, hg⟩
  refine ⟨g, hg, ?_, ?_⟩
  · intro b hb
    have hfst := scale_metric_fst (run fonts ops) b.width font_id font_size
      (run_inv fonts ops).1
    rw [run_fonts] at hfst
    unfold FontCache.em_width
    simp only [run_fonts, hg, hb]
    rw [← hfst]
  · intro e he
    unfold FontCache.em_width
    simp only [run_fonts, hg, he]

/-- A concrete metrics record for test backends. -/
def mW : Metrics :=
  { units_per_em := 1000, ascent := 800, descent := -200, cap_height := 700,
    bounding_box := ⟨0, -200, 600, 1000⟩ }

/-- A concrete backend: the family Arial has two fonts with all glyphs, the
family Broken has one font with no glyphs, everything else is unknown. -/
def fontsW : FontSystem where
  load_family := fun name =>
    if name = "Arial" then Except.ok [⟨0⟩, ⟨1⟩]
    else if name = "Broken" then Except.ok [⟨9⟩]
    else Except.error "unknown family"
  glyph_for_char := fun font_id _ => if font_id.id == 9 then none else some 7
  select_font := fun _ _ => none
  font_metrics := fun _ => mW
  typographic_bounds := fun _ _ => Except.ok ⟨0, 0, 500, 700⟩

/-- The state after loading Arial through `fontsW`. -/
def stW1 : FontCacheState :=
  { FontCache.new fontsW with families := [⟨"Arial", [⟨0⟩, ⟨1⟩]⟩] }

theorem hArial : (0 : Nat) < (run fontsW [Op.load ["Arial"]]).families.length := by decide

/-- A backend whose fonts have every glyph but whose typographic-bounds
query always fails. -/
def fontsC9 : FontSystem where
  load_family := fun _ => Except.ok [⟨0⟩]
  glyph_for_char := fun _ _ => some 3
  select_font := fun _ _ => none
  font_metrics := fun _ => mW
  typographic_bounds := fun _ _ => Except.error "backend failed to measure glyph"

/-- C9 counterexample: a font of a loaded family (which therefore passed the
load-time glyph validation) on which `em_width` still reaches a failure
branch, because the backend's typographic-bounds query fails. -/
theorem em_width_counterexample :
    (∃ fam ∈ (run fontsC9 [Op.load ["A"]]).families, FontId.mk 0 ∈ fam.font_ids) ∧
    FontCache.em_width (run fontsC9 [Op.load ["A"]]) ⟨0⟩ 12 = none := by
  constructor
  · exact ⟨⟨"A", [⟨0⟩]⟩, by decide, by decide⟩
  · rfl

theorem select_font_idempotent_witness :
    ∃ fid st2,
      FontCache.select_font (run fontsW [Op.load ["Arial"]]) ⟨0⟩ Properties.default
        = some (fid, st2) ∧
      FontCache.select_font st2 ⟨0⟩ Properties.default = some (fid, st2) :=
  select_font_idempotent fontsW [Op.load ["Arial"]] ⟨0⟩ Properties.default hArial

theorem default_font_spec_witness :
    FontCache.default_font (run fontsW [Op.load ["Arial"]]) ⟨0⟩
      = FontCache.select_font (run fontsW [Op.load ["Arial"]]) ⟨0⟩ Properties.default ∧
    ∃ fid st2,
      FontCache.default_font (run fontsW [Op.load ["Arial"]]) ⟨0⟩ = some (fid, st2) :=
  default_font_spec fontsW [Op.load ["Arial"]] ⟨0⟩ hArial

theorem select_font_total_witness :
    ∃ fid st2,
      FontCache.select_font (run fontsW [Op.load ["Arial"]]) ⟨0⟩ Properties.default
        = some (fid, st2) ∧
      (alookup (run fontsW [Op.load ["Arial"]]).font_selections (⟨0⟩, Properties.default)
          = none →
        fontsW.select_font
          ((run fontsW [Op.load ["Arial"]]).families.get
            ⟨(FamilyId.mk 0).id, hArial⟩).font_ids Properties.default = none →
        ((run fontsW [Op.load ["Arial"]]).families.get
          ⟨(FamilyId.mk 0).id, hArial⟩).font_ids.head? = some fid) :=
  select_font_total fontsW [Op.load ["Arial"]] ⟨0⟩ Properties.default hArial

theorem load_family_glyph_failure_witness :
    FontCache.load_family (FontCache.new fontsW) ["Broken", "Fallback"]
      = (Except.error "font must contain a glyph for the 'm' character",
         FontCache.new fontsW) ∧
    FontCache.load_family (FontCache.new fontsW) ["Arial"] = (Except.ok ⟨0⟩, stW1) :=
  ⟨(load_family_glyph_failure (FontCache.new fontsW) "Broken" ["Fallback"] [⟨9⟩]
      rfl rfl (by decide) rfl).1,
   (load_family_glyph_failure (FontCache.new fontsW) "Broken" ["Fallback"] [⟨9⟩]
      rfl rfl (by decide) rfl).2 "Arial" [⟨0⟩, ⟨1⟩] rfl rfl (by decide) rfl⟩

theorem load_family_exhausted_witness :
    FontCache.load_family (FontCache.new fontsW) ["NonExistentFont1", "NonExistentFont2"]
      = (Except.error "could not find a non-empty font family matching one of the given names",
         FontCache.new fontsW) :=
  load_family_exhausted (FontCache.new fontsW) ["NonExistentFont1", "NonExistentFont2"]
    (by
      intro n hn
      simp only [List.mem_cons, List.not_mem_nil, or_false] at hn
      rcases hn with rfl | rfl
      · exact ⟨rfl, Or.inl ⟨"unknown family", rfl⟩⟩
      · exact ⟨rfl, Or.inl ⟨"unknown family", rfl⟩⟩)

theorem load_family_registered_witness :
    FontCache.load_family stW1 ["Arial", "Helvetica"] = (Except.ok ⟨0⟩, stW1) ∧
    FontCache.load_family { stW1 with fonts := fontsC9 } ["Arial", "Helvetica"]
      = (Except.ok ⟨0⟩, { stW1 with fonts := fontsC9 }) ∧
    FontCache.load_family stW1 ["Arial"] = (Except.ok ⟨0⟩, stW1) :=
  ⟨((load_family_registered stW1 "Arial" ["Helvetica"]).1 0 rfl).1,
   ((load_family_registered stW1 "Arial" ["Helvetica"]).1 0 rfl).2 fontsC9,
   (load_family_registered (FontCache.new fontsW) "Arial" []).2 ⟨0⟩ stW1 rfl⟩

theorem family_registry_invariant_witness :
    ((run fontsW [Op.load ["Arial"]]).families.get ⟨0, hArial⟩).font_ids ≠ [] :=
  (family_registry_invariant fontsW [Op.load ["Arial"]]).1 _ (List.get_mem _ _ _)

theorem em_width_spec_witness :
    FontCache.em_width (run fontsW [Op.load ["Arial"]]) ⟨0⟩ 12
      = some ((500 : Rat) * 12 / ((1000 : Nat) : Rat),
          (FontCache.scale_metric (run fontsW [Op.load ["Arial"]]) 500 ⟨0⟩ 12).2) := by
  obtain ⟨g, hg, hok, _⟩ := em_width_spec fontsW [Op.load ["Arial"]] ⟨0⟩ 12
    ⟨⟨"Arial", [⟨0⟩, ⟨1⟩]⟩, by decide, by decide⟩
  exact hok ⟨0, 0, 500, 700⟩ rfl

end Fonts
